import Mathlib

/-
Verification of the wiki link rewriter (`.github/workflows/wiki_links.sh`).

The script walks a documentation tree and, for every regular file whose
name matches the glob pattern `*.md`, runs the in-place substitution

    sed -i "s/(.*\/\(.*\)\.md/(\1/g" "$file"

This development embeds the two ingredients of the script:

1. the sed substitution, acting line by line with POSIX leftmost-longest
   (greedy) basic-regular-expression matching: a match starts at a
   literal `(`, then `.*`, then `/`, then the captured `\(.*\)`, then the
   literal `.md`; the replacement is `(` followed by the capture, and the
   `g` flag repeats the substitution on the remainder of the line;

2. the recursive directory traversal `collect_files`, whose loop
   `for file in "$1"/*` enumerates the non-hidden entries of a directory
   (the shell glob `*` does not match names beginning with a dot),
   recurses into directories, and rewrites regular files matching `*.md`.

Lines are lists of characters; a file's content is a list of characters
which the substitution processes newline-separated line by line, exactly
as sed does.  The exit-status composition of the script (no `errexit`;
the final `echo` is the last command executed) is modelled explicitly for
the error-handling property.
-/

namespace WikiLinks

/-- `isMdAt s j` holds when the three characters `.md` occur in `s`
starting at index `j`.  This is the literal `\.md` part of the pattern. -/
def isMdAt (s : List Char) (j : Nat) : Bool :=
  s[j]? == some '.' && s[j + 1]? == some 'm' && s[j + 2]? == some 'd'

/-- `hasMd s` holds when `.md` occurs somewhere in `s`. -/
def hasMd : List Char → Bool
  | [] => false
  | c :: rest => isMdAt (c :: rest) 0 || hasMd rest

/-- `slashThenMd s` holds when `s` contains a `/` with an occurrence of
`.md` beginning strictly after it.  A sed match for
`(.*\/\(.*\)\.md` can start at a given `(` exactly when the text after
that parenthesis satisfies this predicate. -/
def slashThenMd : List Char → Bool
  | [] => false
  | c :: rest => (c == '/' && hasMd rest) || slashThenMd rest

/-- Index of the first `(` from which a match of the sed pattern can
start (the POSIX leftmost match position), if any. -/
def firstViable : List Char → Option Nat
  | [] => none
  | c :: rest =>
    if c == '(' && slashThenMd rest then some 0
    else (firstViable rest).map (· + 1)

/-- Index of the last occurrence of `.md` in `s`, if any.  The greedy
leading `.*` makes the leftmost-longest match end at the last `.md`. -/
def lastMd : List Char → Option Nat
  | [] => none
  | c :: rest =>
    match lastMd rest with
    | some j => some (j + 1)
    | none => if isMdAt (c :: rest) 0 then some 0 else none

/-- Index of the last `/` in `s`, if any.  The greedy `.*` before the
`\/` of the pattern makes the capture start after the last slash that
precedes the final `.md`. -/
def lastSlash : List Char → Option Nat
  | [] => none
  | c :: rest =>
    match lastSlash rest with
    | some i => some (i + 1)
    | none => if c == '/' then some 0 else none

/-- One round of the substitution `s/(.*\/\(.*\)\.md/(\1/` on a line:
if the pattern matches, return the already-substituted text up to and
including the replacement, together with the untouched remainder of the
line after the match (where the `g` flag resumes scanning).

The POSIX leftmost-longest rule picks the first `(` from which a match
is possible, extends the match to the last `.md` of the line, and the
greedy first `.*` pushes the capture group to start after the last `/`
preceding that `.md`. -/
def subRound (s : List Char) : Option (List Char × List Char) :=
  match firstViable s with
  | none => none
  | some p =>
    match lastMd (s.drop (p + 1)) with
    | none => none
    | some j =>
      match lastSlash ((s.drop (p + 1)).take j) with
      | none => none
      | some i =>
        some (s.take p ++ '(' :: ((s.drop (p + 1)).take j).drop (i + 1),
          (s.drop (p + 1)).drop (j + 3))

/-- Iterate `subRound` as the `g` flag of `sed` does, resuming after
each replacement.  The fuel bounds the number of rounds; each round
consumes at least five characters of the line, so `s.length` rounds
always suffice. -/
def gsubGo : Nat → List Char → List Char
  | 0, s => s
  | fuel + 1, s =>
    match subRound s with
    | none => s
    | some (pre, rest) => pre ++ gsubGo fuel rest

/-- The full effect of `sed "s/(.*\/\(.*\)\.md/(\1/g"` on a single line
(a newline-free character list). -/
def gsubLine (s : List Char) : List Char := gsubGo s.length s

/-- Split a file content into its newline-separated lines, as `sed`
does when filling its pattern space. -/
def splitNl : List Char → List (List Char)
  | [] => [[]]
  | c :: rest =>
    if c == '\n' then [] :: splitNl rest
    else
      match splitNl rest with
      | [] => [[c]]
      | l :: ls => (c :: l) :: ls

/-- Reassemble lines into a file content, the inverse of `splitNl`. -/
def joinNl : List (List Char) → List Char
  | [] => []
  | [l] => l
  | l :: ls => l ++ '\n' :: joinNl ls

/-- The effect of the whole `sed -i` invocation on a file content:
every line is rewritten independently. -/
def sedFile (content : List Char) : List Char :=
  joinNl ((splitNl content).map gsubLine)

/-! ### The directory traversal `collect_files` -/

/-- A directory tree: regular files carry their text content,
directories carry their entries. -/
inductive FSEntry where
  | file (name : String) (content : List Char)
  | dir (name : String) (entries : List FSEntry)

/-- Name of an entry. -/
def entryName : FSEntry → String
  | .file n _ => n
  | .dir n _ => n

/-- Whether a name is skipped by the shell glob `*`: names beginning
with a dot are not matched. -/
def hiddenName (n : String) : Bool :=
  match n.data with
  | [] => false
  | c :: _ => c == '.'

/-- Whether a name matches the glob `*.md` of the script's guard
`[[ "$file" == *.md ]]`. -/
def endsWithMd (n : String) : Bool :=
  n.data.reverse.take 3 == ['d', 'm', '.']

mutual

/-- The body of `collect_files` applied to the (glob-enumerated)
children of a directory: hidden entries are not matched by `"$1"/*` and
are left untouched; directories are recursed into; regular files whose
path matches `*.md` are rewritten in place. -/
def processChildren : List FSEntry → List FSEntry
  | [] => []
  | e :: es => processChild e :: processChildren es

/-- One iteration of the `for file in "$1"/*` loop. -/
def processChild : FSEntry → FSEntry
  | .file n c =>
    if hiddenName n then .file n c
    else if endsWithMd n then .file n (sedFile c) else .file n c
  | .dir n es =>
    if hiddenName n then .dir n es else .dir n (processChildren es)

end

/-- `collect_files` called on a root path: when the root is a directory
its children are processed; when it is not, the glob `"$1"/*` matches
nothing and the call is a no-op. -/
def collectFiles : FSEntry → FSEntry
  | .file n c => .file n c
  | .dir n es => .dir n (processChildren es)

mutual

/-- Relative paths (with contents) of all regular files in a list of
entries, in traversal order. -/
def filesCL : List FSEntry → List (List String × List Char)
  | [] => []
  | e :: es => filesCE e ++ filesCL es

/-- Relative paths (with contents) of all regular files inside one
entry. -/
def filesCE : FSEntry → List (List String × List Char)
  | .file n c => [([n], c)]
  | .dir n es => (filesCL es).map (fun pc => (n :: pc.1, pc.2))

end

/-- All files under a root directory, with their root-relative paths
and contents. -/
def filesC : FSEntry → List (List String × List Char)
  | .file _ _ => []
  | .dir _ es => filesCL es

/-- Root-relative paths of all files under a root directory. -/
def allFiles (t : FSEntry) : List (List String) :=
  (filesC t).map (·.1)

mutual

/-- Root-relative paths of the regular files reached by the loop of
`collect_files`, in visiting order. -/
def visitsL : List FSEntry → List (List String)
  | [] => []
  | e :: es => visitsE e ++ visitsL es

/-- Files reached through one child entry: hidden entries are skipped
by the glob `"$1"/*` entirely. -/
def visitsE : FSEntry → List (List String)
  | .file n _ => if hiddenName n then [] else [[n]]
  | .dir n es => if hiddenName n then [] else (visitsL es).map (n :: ·)

end

/-- Files visited by `collect_files` run on a root. -/
def visits : FSEntry → List (List String)
  | .file _ _ => []
  | .dir _ es => visitsL es

mutual

/-- Sibling-name distinctness of a list of entries. -/
def distinctNames : List FSEntry → Bool
  | [] => true
  | e :: es => !(es.any (fun x => entryName x == entryName e)) && distinctNames es

/-- Well-formedness of a tree: in every directory the entry names are
pairwise distinct, as they are on a real filesystem. -/
def wfList : List FSEntry → Bool
  | [] => true
  | e :: es => wfEntry e && wfList es

/-- Well-formedness of one entry. -/
def wfEntry : FSEntry → Bool
  | .file _ _ => true
  | .dir _ es => distinctNames es && wfList es

end

/-- Well-formedness of a root. -/
def wfB : FSEntry → Bool
  | .file _ _ => true
  | .dir _ es => distinctNames es && wfList es

/-- Whether the last component of a relative path matches `*.md`. -/
def lastIsMd (q : List String) : Bool :=
  match q.getLast? with
  | some n => endsWithMd n
  | none => false

/-- A file at relative path `q` is rewritten by the traversal exactly
when no component is skipped by the glob and the file name matches
`*.md`. -/
def rewrittenPath (q : List String) : Bool :=
  q.all (fun n => !hiddenName n) && lastIsMd q

/-- The effect of one run on a single catalogued file. -/
def rewriteEntry (pc : List String × List Char) : List String × List Char :=
  if rewrittenPath pc.1 then (pc.1, sedFile pc.2) else pc

/-! ### Exit-status model of the script

The script runs `collect_files docs/wiki` followed by
`echo "Links transformed successfully!"` with no `set -e`: the exit
status of the whole script is the exit status of the last command
executed, the `echo`.  Failures of individual `sed -i` invocations (the
oracle `fails` tells which file paths fail) change the running status of
the loop but are never propagated. -/

/-- Status of a sequential composition `a; b` in POSIX shell: the
status of `b`. -/
def seqStatus (_a b : Nat) : Nat := b

/-- Status of the successful final `echo`. -/
def echoStatus : Nat := 0

mutual

/-- Running exit status of the `for` loop of `collect_files` over a
list of children, starting from status `st`. -/
def cfStatus (fails : List (List String)) (pre : List String) (st : Nat) :
    List FSEntry → Nat
  | [] => st
  | e :: es => cfStatus fails pre (childStatus fails pre st e) es

/-- Exit status after one loop iteration: hidden entries are not
enumerated (status unchanged); a visited `*.md` file's status is that
of its `sed -i` (1 when the oracle says the access fails, else 0);
other files leave the failed `[[ ... ]]` conditional's status 0;
directories take the status of the recursive call. -/
def childStatus (fails : List (List String)) (pre : List String) (st : Nat) :
    FSEntry → Nat
  | .file n _ =>
    if hiddenName n then st
    else if endsWithMd n then (if (pre ++ [n]) ∈ fails then 1 else 0) else 0
  | .dir n es =>
    if hiddenName n then st else cfStatus fails (pre ++ [n]) 0 es

end

/-- Exit status of `collect_files` on the root. -/
def collectStatus (fails : List (List String)) : FSEntry → Nat
  | .file _ _ => 0
  | .dir _ es => cfStatus fails [] 0 es

/-- Exit status of the whole script: `collect_files docs/wiki` followed
by the final `echo`. -/
def scriptExit (fails : List (List String)) (t : FSEntry) : Nat :=
  seqStatus (collectStatus fails t) echoStatus

/-! ### Characterizations of the scanning functions -/

/-- A sed match of `(.*\/\(.*\)\.md` can start at position `p`:
there is a `(` at `p`, and somewhere after it a `/` followed later by
`.md`. -/
def StartsMatch (s : List Char) (p : Nat) : Prop :=
  s[p]? = some '(' ∧
    ∃ i j, p < i ∧ i < j ∧ s[i]? = some '/' ∧ isMdAt s j = true

/-- Internal form of `StartsMatch` used by the matcher. -/
def ViableAt (s : List Char) (p : Nat) : Prop :=
  s[p]? = some '(' ∧ slashThenMd (s.drop (p + 1)) = true

theorem isMdAt_nil (j : Nat) : isMdAt [] j = false := by
  simp [isMdAt]

theorem isMdAt_cons_succ (c : Char) (s : List Char) (j : Nat) :
    isMdAt (c :: s) (j + 1) = isMdAt s j := by
  simp [isMdAt, List.getElem?_cons_succ]

theorem isMdAt_drop (s : List Char) (n k : Nat) :
    isMdAt (s.drop n) k = isMdAt s (n + k) := by
  have h1 : n + k + 1 = n + (k + 1) := by omega
  have h2 : n + k + 2 = n + (k + 2) := by omega
  simp [isMdAt, List.getElem?_drop, h1, h2]

theorem hasMd_iff (s : List Char) :
    hasMd s = true ↔ ∃ j, isMdAt s j = true := by
  induction s with
  | nil =>
    simp [hasMd, isMdAt_nil]
  | cons c rest ih =>
    constructor
    · intro h
      rcases Bool.or_eq_true_iff.mp h with h0 | h1
      · exact ⟨0, h0⟩
      · obtain ⟨j, hj⟩ := ih.mp h1
        exact ⟨j + 1, (isMdAt_cons_succ c rest j).symm ▸ hj⟩
    · rintro ⟨j, hj⟩
      cases j with
      | zero => exact Bool.or_eq_true_iff.mpr (Or.inl hj)
      | succ j =>
        exact Bool.or_eq_true_iff.mpr
          (Or.inr (ih.mpr ⟨j, (isMdAt_cons_succ c rest j) ▸ hj⟩))

theorem slashThenMd_iff (s : List Char) :
    slashThenMd s = true ↔
      ∃ i j, i < j ∧ s[i]? = some '/' ∧ isMdAt s j = true := by
  induction s with
  | nil =>
    simp [slashThenMd, isMdAt_nil]
  | cons c rest ih =>
    constructor
    · intro h
      rcases Bool.or_eq_true_iff.mp h with h0 | h1
      · obtain ⟨hc, hmd⟩ := Bool.and_eq_true_iff.mp h0
        obtain ⟨j, hj⟩ := (hasMd_iff rest).mp hmd
        refine ⟨0, j + 1, Nat.succ_pos j, ?_, ?_⟩
        · simp [beq_iff_eq.mp hc]
        · exact (isMdAt_cons_succ c rest j).symm ▸ hj
      · obtain ⟨i, j, hij, hi, hj⟩ := ih.mp h1
        refine ⟨i + 1, j + 1, by omega, ?_, ?_⟩
        · simpa [List.getElem?_cons_succ] using hi
        · exact (isMdAt_cons_succ c rest j).symm ▸ hj
    · rintro ⟨i, j, hij, hi, hj⟩
      cases i with
      | zero =>
        have hc : c = '/' := by simpa using hi
        obtain ⟨j', hj'⟩ : ∃ j', j = j' + 1 := ⟨j - 1, by omega⟩
        subst hj'
        have : hasMd rest = true :=
          (hasMd_iff rest).mpr ⟨j', (isMdAt_cons_succ c rest j') ▸ hj⟩
        exact Bool.or_eq_true_iff.mpr (Or.inl (by simp [hc, this]))
      | succ i =>
        obtain ⟨j', hj'⟩ : ∃ j', j = j' + 1 := ⟨j - 1, by omega⟩
        subst hj'
        refine Bool.or_eq_true_iff.mpr (Or.inr (ih.mpr ⟨i, j', by omega, ?_, ?_⟩))
        · simpa [List.getElem?_cons_succ] using hi
        · exact (isMdAt_cons_succ c rest j') ▸ hj

theorem viableAt_iff (s : List Char) (p : Nat) :
    ViableAt s p ↔ StartsMatch s p := by
  unfold ViableAt StartsMatch
  constructor
  · rintro ⟨hp, hs⟩
    obtain ⟨i, j, hij, hi, hj⟩ := (slashThenMd_iff _).mp hs
    refine ⟨hp, p + 1 + i, p + 1 + j, by omega, by omega, ?_, ?_⟩
    · simpa [List.getElem?_drop] using hi
    · have := isMdAt_drop s (p + 1) j
      rw [this] at hj
      exact hj
  · rintro ⟨hp, i, j, hpi, hij, hi, hj⟩
    refine ⟨hp, (slashThenMd_iff _).mpr ⟨i - (p + 1), j - (p + 1), by omega, ?_, ?_⟩⟩
    · rw [List.getElem?_drop]
      have : p + 1 + (i - (p + 1)) = i := by omega
      rw [this]; exact hi
    · rw [isMdAt_drop]
      have : p + 1 + (j - (p + 1)) = j := by omega
      rw [this]; exact hj

theorem hasMd_append_of_right (u v : List Char) (h : hasMd v = true) :
    hasMd (u ++ v) = true := by
  induction u with
  | nil => simpa using h
  | cons c rest ih =>
    exact Bool.or_eq_true_iff.mpr (Or.inr ih)

theorem hasMd_md (d : List Char) : hasMd ('.' :: 'm' :: 'd' :: d) = true := by
  refine Bool.or_eq_true_iff.mpr (Or.inl ?_)
  simp [isMdAt]

theorem slashThenMd_of_split (u v : List Char) (h : hasMd v = true) :
    slashThenMd (u ++ '/' :: v) = true := by
  induction u with
  | nil => exact Bool.or_eq_true_iff.mpr (Or.inl (by simp [h]))
  | cons c rest ih => exact Bool.or_eq_true_iff.mpr (Or.inr ih)

theorem firstViable_none (s : List Char) (h : firstViable s = none) :
    ∀ p, ¬ ViableAt s p := by
  induction s with
  | nil =>
    intro p hv
    simp [ViableAt] at hv
  | cons c rest ih =>
    intro p hv
    unfold firstViable at h
    by_cases hc : (c == '(' && slashThenMd rest) = true
    · rw [if_pos hc] at h; exact Option.noConfusion h
    · rw [if_neg hc] at h
      have hrest : firstViable rest = none := by
        cases hfv : firstViable rest with
        | none => rfl
        | some q => rw [hfv] at h; exact Option.noConfusion h
      cases p with
      | zero =>
        obtain ⟨hp, hs⟩ := hv
        have hc' : c = '(' := by simpa using hp
        have hs' : slashThenMd rest = true := by
          simpa using hs
        exact hc (by simp [hc', hs'])
      | succ p =>
        obtain ⟨hp, hs⟩ := hv
        refine ih hrest p ⟨by simpa [List.getElem?_cons_succ] using hp, ?_⟩
        simpa using hs

theorem firstViable_some (s : List Char) (p : Nat) (h : firstViable s = some p) :
    ViableAt s p ∧ ∀ q, q < p → ¬ ViableAt s q := by
  induction s generalizing p with
  | nil => exact absurd h (by simp [firstViable])
  | cons c rest ih =>
    unfold firstViable at h
    by_cases hc : (c == '(' && slashThenMd rest) = true
    · rw [if_pos hc] at h
      have hp0 : p = 0 := by
        have := Option.some.inj h
        omega
      subst hp0
      obtain ⟨hc1, hc2⟩ := Bool.and_eq_true_iff.mp hc
      refine ⟨⟨by simpa using beq_iff_eq.mp hc1, by simpa using hc2⟩, ?_⟩
      exact fun q hq => absurd hq (Nat.not_lt_zero q)
    · rw [if_neg hc] at h
      cases hfv : firstViable rest with
      | none => rw [hfv] at h; exact Option.noConfusion h
      | some q =>
        rw [hfv] at h
        have hpq : p = q + 1 := by
          rw [Option.map_some'] at h
          exact (Option.some.inj h).symm
        subst hpq
        obtain ⟨hvq, hmin⟩ := ih q hfv
        constructor
        · obtain ⟨h1, h2⟩ := hvq
          exact ⟨by simpa [List.getElem?_cons_succ] using h1, by simpa using h2⟩
        · intro r hr hvr
          cases r with
          | zero =>
            obtain ⟨h1, h2⟩ := hvr
            have hc' : c = '(' := by simpa using h1
            have hs' : slashThenMd rest = true := by simpa using h2
            exact hc (by simp [hc', hs'])
          | succ r =>
            obtain ⟨h1, h2⟩ := hvr
            refine hmin r (by omega)
              ⟨by simpa [List.getElem?_cons_succ] using h1, by simpa using h2⟩

theorem lastMd_none (s : List Char) (h : lastMd s = none) :
    ∀ j, isMdAt s j = false := by
  induction s with
  | nil => intro j; exact isMdAt_nil j
  | cons c rest ih =>
    intro j
    unfold lastMd at h
    cases hlm : lastMd rest with
    | some k => rw [hlm] at h; exact Option.noConfusion h
    | none =>
      rw [hlm] at h
      by_cases h0 : isMdAt (c :: rest) 0 = true
      · rw [if_pos h0] at h; exact Option.noConfusion h
      · cases j with
        | zero => exact Bool.eq_false_iff.mpr (fun hh => h0 hh)
        | succ j => rw [isMdAt_cons_succ]; exact ih hlm j

theorem lastMd_some (s : List Char) (j : Nat) (h : lastMd s = some j) :
    isMdAt s j = true ∧ ∀ j', isMdAt s j' = true → j' ≤ j := by
  induction s generalizing j with
  | nil => exact absurd h (by simp [lastMd])
  | cons c rest ih =>
    unfold lastMd at h
    cases hlm : lastMd rest with
    | some k =>
      rw [hlm] at h
      have hjk : j = k + 1 := by
        have := Option.some.inj h
        omega
      subst hjk
      obtain ⟨hk, hmax⟩ := ih k hlm
      refine ⟨(isMdAt_cons_succ c rest k).symm ▸ hk, ?_⟩
      intro j' hj'
      cases j' with
      | zero => omega
      | succ j' =>
        rw [isMdAt_cons_succ] at hj'
        exact Nat.succ_le_succ (hmax j' hj')
    | none =>
      rw [hlm] at h
      by_cases h0 : isMdAt (c :: rest) 0 = true
      · rw [if_pos h0] at h
        have hj0 : j = 0 := by
          have := Option.some.inj h
          omega
        subst hj0
        refine ⟨h0, ?_⟩
        intro j' hj'
        cases j' with
        | zero => omega
        | succ j' =>
          rw [isMdAt_cons_succ] at hj'
          rw [lastMd_none rest hlm j'] at hj'
          exact Bool.noConfusion hj'
      · rw [if_neg h0] at h; exact Option.noConfusion h

theorem lastSlash_none (s : List Char) (h : lastSlash s = none) :
    ∀ i : Nat, s[i]? ≠ some '/' := by
  induction s with
  | nil => intro i; simp
  | cons c rest ih =>
    intro i
    unfold lastSlash at h
    cases hls : lastSlash rest with
    | some k => rw [hls] at h; exact Option.noConfusion h
    | none =>
      rw [hls] at h
      by_cases h0 : (c == '/') = true
      · rw [if_pos h0] at h; exact Option.noConfusion h
      · cases i with
        | zero =>
          intro hc
          exact h0 (by simpa using hc)
        | succ i =>
          rw [List.getElem?_cons_succ]
          exact ih hls i

theorem lastSlash_some (s : List Char) (i : Nat) (h : lastSlash s = some i) :
    s[i]? = some '/' ∧ ∀ i' : Nat, s[i']? = some '/' → i' ≤ i := by
  induction s generalizing i with
  | nil => exact absurd h (by simp [lastSlash])
  | cons c rest ih =>
    unfold lastSlash at h
    cases hls : lastSlash rest with
    | some k =>
      rw [hls] at h
      have hik : i = k + 1 := by
        have := Option.some.inj h
        omega
      subst hik
      obtain ⟨hk, hmax⟩ := ih k hls
      refine ⟨by simpa [List.getElem?_cons_succ] using hk, ?_⟩
      intro i' hi'
      cases i' with
      | zero => omega
      | succ i' =>
        rw [List.getElem?_cons_succ] at hi'
        exact Nat.succ_le_succ (hmax i' hi')
    | none =>
      rw [hls] at h
      by_cases h0 : (c == '/') = true
      · rw [if_pos h0] at h
        have hi0 : i = 0 := by
          have := Option.some.inj h
          omega
        subst hi0
        refine ⟨by simpa using beq_iff_eq.mp h0, ?_⟩
        intro i' hi'
        cases i' with
        | zero => omega
        | succ i' =>
          rw [List.getElem?_cons_succ] at hi'
          exact absurd hi' (lastSlash_none rest hls i')
      · rw [if_neg h0] at h; exact Option.noConfusion h

/-! ### Anatomy of one substitution round -/

theorem isMdAt_iff (s : List Char) (j : Nat) :
    isMdAt s j = true ↔
      s[j]? = some '.' ∧ s[j + 1]? = some 'm' ∧ s[j + 2]? = some 'd' := by
  simp [isMdAt, and_assoc]

theorem subRound_nil : subRound [] = none := rfl

theorem subRound_eq_none_of (s : List Char) (h : firstViable s = none) :
    subRound s = none := by
  unfold subRound
  rw [h]

theorem drop_eq_cons_of_getElem (l : List Char) (n : Nat) (c : Char)
    (h : l[n]? = some c) : l.drop n = c :: l.drop (n + 1) := by
  have hn : n < l.length := (List.getElem?_eq_some.mp h).1
  rw [List.drop_eq_getElem_cons hn]
  have h2 := List.getElem?_eq_getElem hn
  rw [h] at h2
  rw [Option.some.inj h2]

/-- Everything the matcher determines about a successful round: the
leftmost viable `(` at `p`, the last `.md` of the tail at offset `J`,
the last `/` before it at offset `i0`, and the shapes of the rewritten
text and of the remainder. -/
theorem subRound_anatomy (s pre rest : List Char)
    (h : subRound s = some (pre, rest)) :
    ∃ p J i0,
      firstViable s = some p ∧
      ViableAt s p ∧
      s[p]? = some '(' ∧
      (∀ q, q < p → ¬ ViableAt s q) ∧
      p < s.length ∧
      i0 < J ∧
      ((s.drop (p + 1)).take J)[i0]? = some '/' ∧
      (∀ i' : Nat, ((s.drop (p + 1)).take J)[i']? = some '/' → i' ≤ i0) ∧
      isMdAt (s.drop (p + 1)) J = true ∧
      (∀ j', isMdAt (s.drop (p + 1)) j' = true → j' ≤ J) ∧
      pre = s.take p ++ '(' :: ((s.drop (p + 1)).take J).drop (i0 + 1) ∧
      rest = (s.drop (p + 1)).drop (J + 3) := by
  unfold subRound at h
  split at h
  · exact Option.noConfusion h
  next p hp =>
    split at h
    · exact Option.noConfusion h
    next J hJ =>
      split at h
      · exact Option.noConfusion h
      next i0 hI =>
        have hpe : pre = s.take p ++ '(' :: ((s.drop (p + 1)).take J).drop (i0 + 1) :=
          (Prod.ext_iff.mp (Option.some.inj h)).1.symm
        have hre : rest = (s.drop (p + 1)).drop (J + 3) :=
          (Prod.ext_iff.mp (Option.some.inj h)).2.symm
        obtain ⟨hv, hmin⟩ := firstViable_some s p hp
        obtain ⟨mdJ, Jmax⟩ := lastMd_some _ J hJ
        obtain ⟨sl, imax⟩ := lastSlash_some _ i0 hI
        have hiJ : i0 < J := by
          have h1 : i0 < ((s.drop (p + 1)).take J).length :=
            (List.getElem?_eq_some.mp sl).1
          have h2 : ((s.drop (p + 1)).take J).length ≤ J := by
            rw [List.length_take]
            exact Nat.min_le_left _ _
          omega
        have hps : p < s.length := (List.getElem?_eq_some.mp hv.1).1
        exact ⟨p, J, i0, hp, hv, hv.1, hmin, hps, hiJ, sl, imax, mdJ, Jmax, hpe, hre⟩

theorem subRound_isSome (s : List Char) (p : Nat)
    (hp : firstViable s = some p) :
    ∃ pr rs, subRound s = some (pr, rs) := by
  obtain ⟨⟨hpc, hsl⟩, _⟩ := firstViable_some s p hp
  obtain ⟨i, j, hij, hi, hj⟩ := (slashThenMd_iff _).mp hsl
  cases hJ : lastMd (s.drop (p + 1)) with
  | none =>
    rw [lastMd_none _ hJ j] at hj
    exact Bool.noConfusion hj
  | some J =>
    obtain ⟨_, Jmax⟩ := lastMd_some _ J hJ
    have hiJ : i < J := lt_of_lt_of_le hij (Jmax j hj)
    have hiJ' : ((s.drop (p + 1)).take J)[i]? = some '/' := by
      rw [List.getElem?_take_of_lt hiJ]
      exact hi
    cases hI : lastSlash ((s.drop (p + 1)).take J) with
    | none => exact absurd hiJ' (lastSlash_none _ hI i)
    | some i0 =>
      refine ⟨s.take p ++ '(' :: ((s.drop (p + 1)).take J).drop (i0 + 1),
        (s.drop (p + 1)).drop (J + 3), ?_⟩
      unfold subRound
      simp only [hp, hJ, hI]

theorem gsubGo_of_none (s : List Char) (h : subRound s = none) :
    ∀ fuel, gsubGo fuel s = s := by
  intro fuel
  cases fuel with
  | zero => rfl
  | succ f =>
    unfold gsubGo
    rw [h]

theorem gsubLine_of_none (s : List Char) (h : subRound s = none) :
    gsubLine s = s :=
  gsubGo_of_none s h s.length

theorem noViable_rest (s pre rest : List Char)
    (h : subRound s = some (pre, rest)) : firstViable rest = none := by
  obtain ⟨p, J, i0, _, _, _, _, _, _, _, _, _, Jmax, _, hre⟩ :=
    subRound_anatomy s pre rest h
  cases hfv : firstViable rest with
  | none => rfl
  | some q =>
    exfalso
    obtain ⟨⟨_, hsl⟩, _⟩ := firstViable_some rest q hfv
    obtain ⟨i, j, _, _, hj⟩ := (slashThenMd_iff _).mp hsl
    rw [isMdAt_drop] at hj
    rw [hre] at hj
    rw [isMdAt_drop] at hj
    have := Jmax _ hj
    omega

theorem gsubLine_eq_of (s pre rest : List Char)
    (h : subRound s = some (pre, rest)) : gsubLine s = pre ++ rest := by
  have hnil : s ≠ [] := by
    intro he
    rw [he, subRound_nil] at h
    exact Option.noConfusion h
  have hlen : 0 < s.length := List.length_pos.mpr hnil
  obtain ⟨f, hf⟩ : ∃ f, s.length = f + 1 := ⟨s.length - 1, by omega⟩
  have hrest : subRound rest = none :=
    subRound_eq_none_of rest (noViable_rest s pre rest h)
  show gsubGo s.length s = pre ++ rest
  rw [hf]
  unfold gsubGo
  simp only [h]
  rw [gsubGo_of_none rest hrest f]

/-! ### The rewritten line admits no further match -/

theorem noViable_output (s pre rest : List Char)
    (h : subRound s = some (pre, rest)) :
    firstViable (pre ++ rest) = none := by
  obtain ⟨p, J, i0, hp, hv, hpc, hmin, hps, hiJ, sl, imax, mdJ, Jmax, hpe, hre⟩ :=
    subRound_anatomy s pre rest h
  have hslashS : s[p + 1 + i0]? = some '/' := by
    rw [← List.getElem?_drop]
    rw [← List.getElem?_take_of_lt hiJ]
    exact sl
  have hmdS : isMdAt s (p + 1 + J) = true := by
    rw [← isMdAt_drop]
    exact mdJ
  have htl : (s.take p).length = p := List.length_take_of_le (by omega)
  set G := ((s.drop (p + 1)).take J).drop (i0 + 1) with hG
  have hprelen : pre.length = p + 1 + G.length := by
    rw [hpe]
    simp [htl]
    omega
  set m := p + 1 + G.length with hm
  -- no `(` strictly before position p
  have D1 : ∀ k, k < p → s[k]? ≠ some '(' := by
    intro k hk hko
    refine hmin k hk ⟨hko, ?_⟩
    refine (slashThenMd_iff _).mpr
      ⟨p + 1 + i0 - (k + 1), p + 1 + J - (k + 1), by omega, ?_, ?_⟩
    · rw [List.getElem?_drop]
      have he : k + 1 + (p + 1 + i0 - (k + 1)) = p + 1 + i0 := by omega
      rw [he]
      exact hslashS
    · rw [isMdAt_drop]
      have he : k + 1 + (p + 1 + J - (k + 1)) = p + 1 + J := by omega
      rw [he]
      exact hmdS
  -- no slash inside the capture group
  have D2 : ∀ g : Nat, G[g]? ≠ some '/' := by
    intro g hg
    rw [hG, List.getElem?_drop] at hg
    have := imax _ hg
    omega
  -- no `.md` in the remainder
  have D3 : ∀ k, isMdAt rest k = false := by
    intro k
    by_contra hc
    have hc' : isMdAt rest k = true := by
      cases hb : isMdAt rest k with
      | false => exact absurd hb hc
      | true => rfl
    rw [hre, isMdAt_drop] at hc'
    have := Jmax _ hc'
    omega
  -- index translation into the three regions of the output
  have R1 : ∀ k, k < p → (pre ++ rest)[k]? = s[k]? := by
    intro k hk
    rw [List.getElem?_append_left (by omega), hpe,
      List.getElem?_append_left (by omega : k < (s.take p).length),
      List.getElem?_take_of_lt hk]
  have R2 : (pre ++ rest)[p]? = some '(' := by
    rw [List.getElem?_append_left (by omega), hpe,
      List.getElem?_append_right (by omega : (s.take p).length ≤ p)]
    simp [htl]
  have R3 : ∀ k, p < k → k < m → (pre ++ rest)[k]? = G[k - (p + 1)]? := by
    intro k h1 h2
    rw [List.getElem?_append_left (by omega), hpe,
      List.getElem?_append_right (by omega : (s.take p).length ≤ k)]
    have he : k - (s.take p).length = (k - (p + 1)) + 1 := by omega
    rw [he, List.getElem?_cons_succ]
  have R4 : ∀ k, m ≤ k → (pre ++ rest)[k]? = rest[k - m]? := by
    intro k hk
    rw [List.getElem?_append_right (by omega : pre.length ≤ k), hprelen]
  -- now refute any viable start in the output
  cases hfv : firstViable (pre ++ rest) with
  | none => rfl
  | some q =>
    exfalso
    obtain ⟨hvq, _⟩ := firstViable_some _ q hfv
    rw [viableAt_iff] at hvq
    obtain ⟨hq, a, b, hqa, hab, ha, hb⟩ := hvq
    rcases Nat.lt_trichotomy a p with h1 | h1 | h1
    · exact D1 q (by omega) (by rw [← R1 q (by omega)]; exact hq)
    · rw [h1, R2] at ha
      exact absurd (Option.some.inj ha) (by decide)
    · rcases Nat.lt_or_ge a m with h2 | h2
      · exact D2 (a - (p + 1)) (by rw [← R3 a h1 h2]; exact ha)
      · have hbm : isMdAt rest (b - m) = true := by
          rw [isMdAt_iff] at hb ⊢
          obtain ⟨hb1, hb2, hb3⟩ := hb
          refine ⟨?_, ?_, ?_⟩
          · rw [← R4 b (by omega)]; exact hb1
          · have he : b - m + 1 = (b + 1) - m := by omega
            rw [he, ← R4 (b + 1) (by omega)]; exact hb2
          · have he : b - m + 2 = (b + 2) - m := by omega
            rw [he, ← R4 (b + 2) (by omega)]; exact hb3
        rw [D3 (b - m)] at hbm
        exact Bool.noConfusion hbm

/-- A line on which a round succeeds decomposes as
`a ++ "(" ++ b ++ "/" ++ c ++ ".md" ++ d` with a slash-free capture `c`;
the round rewrites it to `a ++ "(" ++ c` and leaves `d` for rescanning. -/
theorem decomp_of_subRound (s pre rest : List Char)
    (h : subRound s = some (pre, rest)) :
    ∃ a b c d, s = a ++ '(' :: (b ++ '/' :: (c ++ '.' :: 'm' :: 'd' :: d)) ∧
      '/' ∉ c ∧ pre = a ++ '(' :: c ∧ rest = d := by
  obtain ⟨p, J, i0, hp, hv, hpc, hmin, hps, hiJ, sl, imax, mdJ, Jmax, hpe, hre⟩ :=
    subRound_anatomy s pre rest h
  have mdidx := (isMdAt_iff _ J).mp mdJ
  have e1 : s = s.take p ++ '(' :: s.drop (p + 1) := by
    conv_lhs => rw [← List.take_append_drop p s]
    rw [drop_eq_cons_of_getElem s p '(' hpc]
  have e2 : s.drop (p + 1) = (s.drop (p + 1)).take J ++
      ('.' :: 'm' :: 'd' :: (s.drop (p + 1)).drop (J + 3)) := by
    conv_lhs => rw [← List.take_append_drop J (s.drop (p + 1))]
    rw [drop_eq_cons_of_getElem _ J '.' mdidx.1]
    rw [drop_eq_cons_of_getElem _ (J + 1) 'm' mdidx.2.1]
    have ea : J + 1 + 1 = J + 2 := rfl
    rw [ea]
    rw [drop_eq_cons_of_getElem _ (J + 2) 'd' mdidx.2.2]
  have e3 : (s.drop (p + 1)).take J = ((s.drop (p + 1)).take J).take i0 ++
      '/' :: ((s.drop (p + 1)).take J).drop (i0 + 1) := by
    conv_lhs => rw [← List.take_append_drop i0 ((s.drop (p + 1)).take J)]
    rw [drop_eq_cons_of_getElem _ i0 '/' sl]
  have hmem : '/' ∉ ((s.drop (p + 1)).take J).drop (i0 + 1) := by
    intro hm
    obtain ⟨g, hg⟩ := List.mem_iff_getElem?.mp hm
    rw [List.getElem?_drop] at hg
    have := imax _ hg
    omega
  refine ⟨s.take p, ((s.drop (p + 1)).take J).take i0,
    ((s.drop (p + 1)).take J).drop (i0 + 1),
    (s.drop (p + 1)).drop (J + 3), ?_, hmem, hpe, hre⟩
  conv_lhs => rw [e1]
  conv_lhs => rw [e2]
  conv_lhs => rw [e3]
  simp [List.append_assoc]

/-- Conversely, any line of that shape admits a successful round. -/
theorem subRound_of_decomp (s a b c d : List Char)
    (h : s = a ++ '(' :: (b ++ '/' :: (c ++ '.' :: 'm' :: 'd' :: d))) :
    ∃ pr rs, subRound s = some (pr, rs) := by
  have hv : ViableAt s a.length := by
    constructor
    · rw [h, List.getElem?_append_right (Nat.le_refl a.length)]
      simp
    · have hdrop : s.drop (a.length + 1)
          = b ++ '/' :: (c ++ '.' :: 'm' :: 'd' :: d) := by
        rw [h]
        exact List.drop_append 1
      rw [hdrop]
      exact slashThenMd_of_split b _ (hasMd_append_of_right c _ (hasMd_md d))
  cases hfv : firstViable s with
  | none => exact absurd hv (firstViable_none s hfv a.length)
  | some p => exact subRound_isSome s p hfv

/-- Full absolute-index description of a successful rewrite: the match
starts at the line's first `(` from which a match is possible, ends at
the line's last `.md`, and the capture runs from just after the last `/`
preceding that `.md`; exactly this one region is replaced. -/
theorem subRound_absolute (s pre rest : List Char)
    (h : subRound s = some (pre, rest)) :
    ∃ p i j, p < i ∧ i < j ∧
      StartsMatch s p ∧ (∀ q, q < p → ¬ StartsMatch s q) ∧
      s[i]? = some '/' ∧ (∀ i' : Nat, s[i']? = some '/' → i' < j → i' ≤ i) ∧
      isMdAt s j = true ∧ (∀ j', isMdAt s j' = true → j' ≤ j) ∧
      gsubLine s = s.take p ++ '(' :: ((s.take j).drop (i + 1) ++ s.drop (j + 3)) := by
  obtain ⟨p, J, i0, hp, hv, hpc, hmin, hps, hiJ, sl, imax, mdJ, Jmax, hpe, hre⟩ :=
    subRound_anatomy s pre rest h
  refine ⟨p, p + 1 + i0, p + 1 + J, by omega, by omega, ?_, ?_, ?_, ?_, ?_, ?_, ?_⟩
  · exact (viableAt_iff s p).mp hv
  · exact fun q hq hsm => hmin q hq ((viableAt_iff s q).mpr hsm)
  · rw [← List.getElem?_drop, ← List.getElem?_take_of_lt hiJ]
    exact sl
  · intro i' hi' hlt
    rcases Nat.lt_or_ge i' (p + 1) with hc | hc
    · omega
    · have hg : (s.drop (p + 1))[i' - (p + 1)]? = some '/' := by
        rw [List.getElem?_drop]
        have e : p + 1 + (i' - (p + 1)) = i' := by omega
        rw [e]
        exact hi'
      have hk : i' - (p + 1) < J := by omega
      have hg' : ((s.drop (p + 1)).take J)[i' - (p + 1)]? = some '/' := by
        rw [List.getElem?_take_of_lt hk]
        exact hg
      have := imax _ hg'
      omega
  · rw [isMdAt_drop] at mdJ
    exact mdJ
  · intro j' hj'
    rcases Nat.lt_or_ge j' (p + 1) with hc | hc
    · omega
    · have hg : isMdAt (s.drop (p + 1)) (j' - (p + 1)) = true := by
        rw [isMdAt_drop]
        have e : p + 1 + (j' - (p + 1)) = j' := by omega
        rw [e]
        exact hj'
      have := Jmax _ hg
      omega
  · have htake : s.take (p + 1 + J) = s.take (p + 1) ++ (s.drop (p + 1)).take J :=
      List.take_add s (p + 1) J
    have hlen1 : (s.take (p + 1)).length = p + 1 :=
      List.length_take_of_le (by omega)
    have hgroup : (s.take (p + 1 + J)).drop (p + 1 + i0 + 1)
        = ((s.drop (p + 1)).take J).drop (i0 + 1) := by
      rw [htake]
      have e : p + 1 + i0 + 1 = (s.take (p + 1)).length + (i0 + 1) := by omega
      rw [e, List.drop_append]
    have hsuf : s.drop (p + 1 + J + 3) = (s.drop (p + 1)).drop (J + 3) := by
      rw [List.drop_drop]
      have e : p + 1 + (J + 3) = p + 1 + J + 3 := by omega
      rw [e]
    rw [gsubLine_eq_of s pre rest h, hpe, hre, hgroup, hsuf]
    simp [List.append_assoc]

theorem gsubLine_idem (s : List Char) : gsubLine (gsubLine s) = gsubLine s := by
  cases h : subRound s with
  | none => rw [gsubLine_of_none s h, gsubLine_of_none s h]
  | some pr =>
    obtain ⟨pre, rest⟩ := pr
    rw [gsubLine_eq_of s pre rest h]
    exact gsubLine_of_none _
      (subRound_eq_none_of _ (noViable_output s pre rest h))

/-! ### Lines of a file and the whole-file substitution -/

theorem splitNl_ne_nil (s : List Char) : splitNl s ≠ [] := by
  cases s with
  | nil => simp [splitNl]
  | cons c rest =>
    unfold splitNl
    by_cases hc : (c == '\n') = true
    · rw [if_pos hc]
      simp
    · rw [if_neg hc]
      cases h : splitNl rest <;> simp

theorem mem_splitNl (s : List Char) : ∀ l ∈ splitNl s, '\n' ∉ l := by
  induction s with
  | nil =>
    intro l hl
    simp [splitNl] at hl
    subst hl
    simp
  | cons c rest ih =>
    intro l hl
    unfold splitNl at hl
    by_cases hc : (c == '\n') = true
    · rw [if_pos hc] at hl
      rcases List.mem_cons.mp hl with h | h
      · subst h; simp
      · exact ih l h
    · rw [if_neg hc] at hl
      cases hsp : splitNl rest with
      | nil => exact absurd hsp (splitNl_ne_nil rest)
      | cons l0 ls =>
        rw [hsp] at hl
        rcases List.mem_cons.mp hl with h | h
        · subst h
          intro hm
          rcases List.mem_cons.mp hm with h1 | h1
          · refine hc ?_
            rw [← h1]
            exact beq_self_eq_true '\n'
          · exact ih l0 (by rw [hsp]; exact List.mem_cons_self l0 ls) h1
        · exact ih l (by rw [hsp]; exact List.mem_cons_of_mem l0 h)

theorem splitNl_single (l : List Char) (h : '\n' ∉ l) : splitNl l = [l] := by
  induction l with
  | nil => rfl
  | cons c rest ih =>
    unfold splitNl
    by_cases hceq : c = '\n'
    · have hmem : '\n' ∈ c :: rest := by
        rw [← hceq]
        exact List.mem_cons_self c rest
      exact absurd hmem h
    · rw [if_neg (by simp [hceq])]
      have hrest : '\n' ∉ rest := fun hm => h (List.mem_cons_of_mem c hm)
      rw [ih hrest]

theorem splitNl_cons (c : Char) (rest : List Char) :
    splitNl (c :: rest) =
      if c == '\n' then [] :: splitNl rest
      else
        match splitNl rest with
        | [] => [[c]]
        | l :: ls => (c :: l) :: ls := rfl

theorem splitNl_append_nl (l w : List Char) (h : '\n' ∉ l) :
    splitNl (l ++ '\n' :: w) = l :: splitNl w := by
  induction l with
  | nil =>
    show splitNl ('\n' :: w) = [] :: splitNl w
    rw [splitNl_cons, if_pos (beq_self_eq_true '\n')]
  | cons c rest ih =>
    have hceq : c ≠ '\n' := by
      intro he
      refine h ?_
      rw [← he]
      exact List.mem_cons_self c rest
    show splitNl (c :: (rest ++ '\n' :: w)) = (c :: rest) :: splitNl w
    rw [splitNl_cons, if_neg (by simp [hceq])]
    rw [ih (fun hm => h (List.mem_cons_of_mem c hm))]

theorem splitNl_joinNl (ls : List (List Char)) (hne : ls ≠ [])
    (h : ∀ l ∈ ls, '\n' ∉ l) : splitNl (joinNl ls) = ls := by
  induction ls with
  | nil => exact absurd rfl hne
  | cons l tl ih =>
    cases tl with
    | nil =>
      show splitNl (joinNl [l]) = [l]
      exact splitNl_single l (h l (List.mem_cons_self _ _))
    | cons l2 ls2 =>
      show splitNl (l ++ '\n' :: joinNl (l2 :: ls2)) = l :: l2 :: ls2
      rw [splitNl_append_nl l _ (h l (List.mem_cons_self _ _))]
      rw [ih (by simp) (fun x hx => h x (List.mem_cons_of_mem l hx))]

theorem mem_gsubLine (s : List Char) (x : Char) (hx : x ∈ gsubLine s) :
    x ∈ s ∨ x = '(' := by
  cases h : subRound s with
  | none =>
    rw [gsubLine_of_none s h] at hx
    exact Or.inl hx
  | some pr =>
    obtain ⟨pre, rest⟩ := pr
    obtain ⟨p, J, i0, _, _, _, _, _, _, _, _, _, _, hpe, hre⟩ :=
      subRound_anatomy s pre rest h
    rw [gsubLine_eq_of s pre rest h, hpe, hre] at hx
    rcases List.mem_append.mp hx with hx | hx
    · rcases List.mem_append.mp hx with hx | hx
      · exact Or.inl (List.mem_of_mem_take hx)
      · rcases List.mem_cons.mp hx with hx | hx
        · exact Or.inr hx
        · exact Or.inl
            (List.mem_of_mem_drop (List.mem_of_mem_take (List.mem_of_mem_drop hx)))
    · exact Or.inl (List.mem_of_mem_drop (List.mem_of_mem_drop hx))

theorem no_nl_gsubLine (s : List Char) (h : '\n' ∉ s) : '\n' ∉ gsubLine s := by
  intro hm
  rcases mem_gsubLine s '\n' hm with hc | hc
  · exact h hc
  · exact absurd hc (by decide)

theorem splitNl_sedFile (c : List Char) :
    splitNl (sedFile c) = (splitNl c).map gsubLine := by
  unfold sedFile
  refine splitNl_joinNl _ ?_ ?_
  · intro he
    exact splitNl_ne_nil c (List.map_eq_nil_iff.mp he)
  · intro l hl
    obtain ⟨l0, hl0, rfl⟩ := List.mem_map.mp hl
    exact no_nl_gsubLine l0 (mem_splitNl c l0 hl0)

theorem sedFile_idem (c : List Char) : sedFile (sedFile c) = sedFile c := by
  show joinNl ((splitNl (sedFile c)).map gsubLine) = sedFile c
  rw [splitNl_sedFile, List.map_map]
  unfold sedFile
  congr 1
  refine List.map_congr_left ?_
  intro a ha
  exact gsubLine_idem a

/-! ### The traversal as a transformation of the file catalogue -/

theorem lastIsMd_cons (n : String) (q : List String) (h : q ≠ []) :
    lastIsMd (n :: q) = lastIsMd q := by
  cases q with
  | nil => exact absurd rfl h
  | cons a l => simp [lastIsMd, List.getLast?_cons_cons]

theorem filter_map_comm {α β : Type} (f : α → β) (p : β → Bool) (l : List α) :
    (l.map f).filter p = (l.filter (fun x => p (f x))).map f := by
  induction l with
  | nil => rfl
  | cons x xs ih =>
    simp only [List.map_cons, List.filter_cons]
    cases h : p (f x) with
    | true => simp [h, ih]
    | false => simp [h, ih]

theorem filesCE_fst_ne_nil (e : FSEntry) : ∀ pc ∈ filesCE e, pc.1 ≠ [] := by
  match e with
  | .file n c =>
    intro pc hpc
    have hpc' : pc = ([n], c) := by simpa [filesCE] using hpc
    rw [hpc']
    simp
  | .dir n es =>
    intro pc hpc
    have hpc' : pc ∈ (filesCL es).map (fun x => (n :: x.1, x.2)) := hpc
    obtain ⟨a, ha, heq⟩ := List.mem_map.mp hpc'
    rw [← heq]
    simp

theorem filesCL_fst_ne_nil (es : List FSEntry) : ∀ pc ∈ filesCL es, pc.1 ≠ [] := by
  induction es with
  | nil => intro pc hpc; simp [filesCL] at hpc
  | cons e tl ih =>
    intro pc hpc
    have hpc' : pc ∈ filesCE e ++ filesCL tl := hpc
    rcases List.mem_append.mp hpc' with h | h
    · exact filesCE_fst_ne_nil e pc h
    · exact ih pc h

mutual

theorem filesCL_processChildren (es : List FSEntry) :
    filesCL (processChildren es) = (filesCL es).map rewriteEntry := by
  match es with
  | [] => rfl
  | e :: tl =>
    show filesCE (processChild e) ++ filesCL (processChildren tl)
        = (filesCE e ++ filesCL tl).map rewriteEntry
    rw [List.map_append, filesCE_processChild e, filesCL_processChildren tl]

theorem filesCE_processChild (e : FSEntry) :
    filesCE (processChild e) = (filesCE e).map rewriteEntry := by
  match e with
  | .file n c =>
    by_cases h1 : hiddenName n
    · show filesCE (if hiddenName n then FSEntry.file n c
          else if endsWithMd n then FSEntry.file n (sedFile c)
          else FSEntry.file n c) = _
      rw [if_pos h1]
      show [([n], c)] = [rewriteEntry ([n], c)]
      unfold rewriteEntry rewrittenPath
      simp [h1]
    · by_cases h2 : endsWithMd n
      · show filesCE (if hiddenName n then FSEntry.file n c
            else if endsWithMd n then FSEntry.file n (sedFile c)
            else FSEntry.file n c) = _
        rw [if_neg h1, if_pos h2]
        show [([n], sedFile c)] = [rewriteEntry ([n], c)]
        unfold rewriteEntry rewrittenPath lastIsMd
        simp [h1, h2]
      · show filesCE (if hiddenName n then FSEntry.file n c
            else if endsWithMd n then FSEntry.file n (sedFile c)
            else FSEntry.file n c) = _
        rw [if_neg h1, if_neg h2]
        show [([n], c)] = [rewriteEntry ([n], c)]
        unfold rewriteEntry rewrittenPath lastIsMd
        simp [h1, h2]
  | .dir n es =>
    by_cases h1 : hiddenName n
    · show filesCE (if hiddenName n then FSEntry.dir n es
          else FSEntry.dir n (processChildren es)) = _
      rw [if_pos h1]
      show (filesCL es).map (fun x => (n :: x.1, x.2))
          = ((filesCL es).map (fun x => (n :: x.1, x.2))).map rewriteEntry
      rw [List.map_map]
      refine List.map_congr_left ?_
      intro a ha
      show (n :: a.1, a.2) = rewriteEntry (n :: a.1, a.2)
      unfold rewriteEntry rewrittenPath
      simp [h1]
    · show filesCE (if hiddenName n then FSEntry.dir n es
          else FSEntry.dir n (processChildren es)) = _
      rw [if_neg h1]
      show (filesCL (processChildren es)).map (fun x => (n :: x.1, x.2))
          = ((filesCL es).map (fun x => (n :: x.1, x.2))).map rewriteEntry
      rw [filesCL_processChildren es, List.map_map, List.map_map]
      refine List.map_congr_left ?_
      intro a ha
      have hne : a.1 ≠ [] := filesCL_fst_ne_nil es a ha
      have hhn : hiddenName n = false := by
        cases hb : hiddenName n with
        | false => rfl
        | true => exact absurd hb h1
      show (n :: (rewriteEntry a).1, (rewriteEntry a).2) = rewriteEntry (n :: a.1, a.2)
      unfold rewriteEntry rewrittenPath
      rw [lastIsMd_cons n a.1 hne]
      simp only [List.all_cons, hhn, Bool.not_false, Bool.true_and]
      cases hC : (a.1.all (fun m => !hiddenName m) && lastIsMd a.1) with
      | true => rfl
      | false => rfl

end

mutual

theorem processChildren_idem (es : List FSEntry) :
    processChildren (processChildren es) = processChildren es := by
  match es with
  | [] => rfl
  | e :: tl =>
    show processChild (processChild e) :: processChildren (processChildren tl)
        = processChild e :: processChildren tl
    rw [processChild_idem e, processChildren_idem tl]

theorem processChild_idem (e : FSEntry) :
    processChild (processChild e) = processChild e := by
  match e with
  | .file n c =>
    by_cases h1 : hiddenName n
    · simp [processChild, h1]
    · by_cases h2 : endsWithMd n
      · simp [processChild, h1, h2, sedFile_idem]
      · simp [processChild, h1, h2]
  | .dir n es =>
    by_cases h1 : hiddenName n
    · simp [processChild, h1]
    · simp [processChild, h1]
      exact processChildren_idem es

end

theorem filesCE_dir_fst (n : String) (es : List FSEntry) :
    (filesCE (.dir n es)).map (fun pc => pc.1)
      = ((filesCL es).map (fun pc => pc.1)).map (fun q => n :: q) := by
  show ((filesCL es).map (fun x => (n :: x.1, x.2))).map (fun pc => pc.1) = _
  rw [List.map_map, List.map_map]
  rfl

mutual

theorem visitsL_eq (es : List FSEntry) :
    visitsL es = ((filesCL es).map (fun pc => pc.1)).filter
      (fun q => q.all (fun m => !hiddenName m)) := by
  match es with
  | [] => rfl
  | e :: tl =>
    show visitsE e ++ visitsL tl = ((filesCL (e :: tl)).map (fun pc => pc.1)).filter
      (fun q => q.all (fun m => !hiddenName m))
    have h0 : filesCL (e :: tl) = filesCE e ++ filesCL tl := rfl
    rw [h0, List.map_append, List.filter_append, visitsE_eq e, visitsL_eq tl]

theorem visitsE_eq (e : FSEntry) :
    visitsE e = ((filesCE e).map (fun pc => pc.1)).filter
      (fun q => q.all (fun m => !hiddenName m)) := by
  match e with
  | .file n c =>
    by_cases h1 : hiddenName n
    · show (if hiddenName n then [] else [[n]]) = _
      rw [if_pos h1]
      show ([] : List (List String)) = _
      simp [filesCE, h1]
    · show (if hiddenName n then [] else [[n]]) = _
      rw [if_neg h1]
      show [[n]] = _
      simp [filesCE, h1]
  | .dir n es =>
    by_cases h1 : hiddenName n
    · show (if hiddenName n then [] else (visitsL es).map (fun q => n :: q)) = _
      rw [if_pos h1, filesCE_dir_fst n es]
      refine Eq.symm (List.filter_eq_nil_iff.mpr ?_)
      intro q hq
      obtain ⟨a, ha, heq⟩ := List.mem_map.mp hq
      rw [← heq]
      simp [h1]
    · show (if hiddenName n then [] else (visitsL es).map (fun q => n :: q)) = _
      rw [if_neg h1, filesCE_dir_fst n es, filter_map_comm, visitsL_eq es]
      congr 1
      refine List.filter_congr ?_
      intro q hq
      simp [List.all_cons, h1]

end

theorem mem_filesCE_fst (e : FSEntry) (q : List String)
    (hq : q ∈ (filesCE e).map (fun pc => pc.1)) :
    q.head? = some (entryName e) := by
  match e with
  | .file n c =>
    have hq' : q = [n] := by simpa [filesCE] using hq
    rw [hq']
    rfl
  | .dir n es =>
    rw [filesCE_dir_fst n es] at hq
    obtain ⟨a, ha, heq⟩ := List.mem_map.mp hq
    rw [← heq]
    rfl

theorem mem_filesCL_fst (es : List FSEntry) (q : List String)
    (hq : q ∈ (filesCL es).map (fun pc => pc.1)) :
    ∃ e ∈ es, q.head? = some (entryName e) := by
  induction es with
  | nil => simp [filesCL] at hq
  | cons e tl ih =>
    have hq' : q ∈ (filesCE e).map (fun pc => pc.1)
        ++ (filesCL tl).map (fun pc => pc.1) := by
      have h0 : filesCL (e :: tl) = filesCE e ++ filesCL tl := rfl
      rw [h0, List.map_append] at hq
      exact hq
    rcases List.mem_append.mp hq' with h | h
    · exact ⟨e, List.mem_cons_self e tl, mem_filesCE_fst e q h⟩
    · obtain ⟨x, hx, hh⟩ := ih h
      exact ⟨x, List.mem_cons_of_mem e hx, hh⟩

mutual

theorem nodup_filesCL (es : List FSEntry) (hd : distinctNames es = true)
    (hw : wfList es = true) : ((filesCL es).map (fun pc => pc.1)).Nodup := by
  match es with
  | [] => simp [filesCL]
  | e :: tl =>
    have h0 : filesCL (e :: tl) = filesCE e ++ filesCL tl := rfl
    rw [h0, List.map_append]
    have hd0 : distinctNames (e :: tl)
        = ((!(tl.any (fun x => entryName x == entryName e))) && distinctNames tl) := rfl
    rw [hd0] at hd
    obtain ⟨hd1, hd2⟩ := Bool.and_eq_true_iff.mp hd
    have hw0 : wfList (e :: tl) = (wfEntry e && wfList tl) := rfl
    rw [hw0] at hw
    obtain ⟨hw1, hw2⟩ := Bool.and_eq_true_iff.mp hw
    refine List.Nodup.append (nodup_filesCE e hw1) (nodup_filesCL tl hd2 hw2) ?_
    intro q hq1 hq2
    have h1 := mem_filesCE_fst e q hq1
    obtain ⟨x, hx, h2⟩ := mem_filesCL_fst tl q hq2
    rw [h1] at h2
    have hany : tl.any (fun y => entryName y == entryName e) = true :=
      List.any_eq_true.mpr ⟨x, hx, beq_iff_eq.mpr (Option.some.inj h2).symm⟩
    rw [hany] at hd1
    exact Bool.noConfusion hd1

theorem nodup_filesCE (e : FSEntry) (hw : wfEntry e = true) :
    ((filesCE e).map (fun pc => pc.1)).Nodup := by
  match e with
  | .file n c => simp [filesCE]
  | .dir n es =>
    rw [filesCE_dir_fst n es]
    have hw0 : wfEntry (.dir n es) = (distinctNames es && wfList es) := rfl
    rw [hw0] at hw
    obtain ⟨h1, h2⟩ := Bool.and_eq_true_iff.mp hw
    refine List.Nodup.map (fun a b hab => ?_) (nodup_filesCL es h1 h2)
    exact ((List.cons.injEq n a n b) ▸ hab).2

end

theorem count_eq_one_of_nodup_mem {α : Type} [BEq α] [LawfulBEq α]
    (l : List α) (a : α) (hn : l.Nodup) (hm : a ∈ l) : l.count a = 1 := by
  induction l with
  | nil => simp at hm
  | cons b tl ih =>
    have hbt : b ∉ tl := (List.nodup_cons.mp hn).1
    rcases List.mem_cons.mp hm with h | h
    · have hanotin : a ∉ tl := by rw [h]; exact hbt
      rw [List.count_cons, if_pos (beq_iff_eq.mpr h.symm)]
      rw [List.count_eq_zero.mpr hanotin]
    · have hne : b ≠ a := fun he => hbt (he ▸ h)
      rw [List.count_cons, if_neg (by simp [hne])]
      rw [ih (List.nodup_cons.mp hn).2 h]

/-! ### Sanity checks against observed `sed` behaviour -/

example :
    gsubLine ("See [Guide](../other/Getting-Started.md) for details.").data
      = ("See [Guide](Getting-Started) for details.").data := by decide

example : gsubLine ("(a/b.md (c/d.md").data = ("(d").data := by decide

example : gsubLine ("x (a/b.md y.md").data = ("x (b.md y").data := by decide

example : gsubLine ("a.md (b/c.md").data = ("a.md (c").data := by decide

example : gsubLine ("(x) see /docs/guide.md").data = ("(guide").data := by decide

example : gsubLine ("(a/b.md.md").data = ("(b.md").data := by decide

example : gsubLine ("no link here").data = ("no link here").data := by decide

example : gsubLine ("(y.md").data = ("(y.md").data := by decide

example : gsubLine ("(a/b/c.md)").data = ("(c)").data := by decide

example : gsubLine ("((a/b.md").data = ("(b").data := by decide

example : gsubLine ("pre(/x.md post").data = ("pre(x post").data := by decide

example :
    sedFile ("a\n(x/y.md\nb").data = ("a\n(y\nb").data := by decide

/-! ### The claims -/

/-- C1, counterexample: on the spec's own scenario line the rewriter
does NOT produce `See [Guide](Getting-Started for details.` — the
closing parenthesis after `.md` is outside the match and is kept, so
the claimed output is wrong. -/
theorem C1_counterexample :
    sedFile ("See [Guide](../other/Getting-Started.md) for details.").data
      ≠ ("See [Guide](Getting-Started for details.").data := by decide

/-- C1 (amended): a file containing the line
`See [Guide](../other/Getting-Started.md) for details.` is rewritten to
`See [Guide](Getting-Started) for details.` — the match ends at `.md`,
so the closing parenthesis that follows survives; only the path prefix
and the `.md` extension are removed. -/
theorem C1_amended_rewrite :
    sedFile ("See [Guide](../other/Getting-Started.md) for details.").data
      = ("See [Guide](Getting-Started) for details.").data := by decide

/-- C2: a markdown file is rewritten line by line, and every line
containing a substring of the shape `(<path>/<name>.md` is rewritten
by replacing one such (maximal) occurrence with `(<name>` where `name`
is the slash-free final path segment; the text before and after the
replaced occurrence is unchanged. -/
theorem C2_shape_rewrite :
    (∀ content : List Char,
      splitNl (sedFile content) = (splitNl content).map gsubLine) ∧
    (∀ ln : List Char,
      (∃ a b c d, ln = a ++ '(' :: (b ++ '/' :: (c ++ '.' :: 'm' :: 'd' :: d))) →
      ∃ pre path nm suf,
        ln = pre ++ '(' :: (path ++ '/' :: (nm ++ '.' :: 'm' :: 'd' :: suf)) ∧
        '/' ∉ nm ∧
        gsubLine ln = pre ++ '(' :: (nm ++ suf)) := by
  refine ⟨splitNl_sedFile, ?_⟩
  intro ln h
  obtain ⟨a, b, c, d, hd⟩ := h
  obtain ⟨pr, rs, hs⟩ := subRound_of_decomp ln a b c d hd
  obtain ⟨a', b', c', d', hdec, hnos, hpre, hrest⟩ := decomp_of_subRound ln pr rs hs
  refine ⟨a', b', c', d', hdec, hnos, ?_⟩
  rw [gsubLine_eq_of ln pr rs hs, hpre, hrest]
  simp [List.append_assoc]

/-- Witness for C2 at the concrete line `(a/b.md`. -/
theorem C2_witness :
    (∃ a b c d, ("(a/b.md").data
      = a ++ '(' :: (b ++ '/' :: (c ++ '.' :: 'm' :: 'd' :: d))) ∧
    (∃ pre path nm suf,
      ("(a/b.md").data = pre ++ '(' :: (path ++ '/' :: (nm ++ '.' :: 'm' :: 'd' :: suf)) ∧
      '/' ∉ nm ∧
      gsubLine ("(a/b.md").data = pre ++ '(' :: (nm ++ suf)) :=
  ⟨⟨[], ['a'], ['b'], [], by decide⟩,
    C2_shape_rewrite.2 _ ⟨[], ['a'], ['b'], [], by decide⟩⟩

/-- C3: the rewriter is idempotent — on a single line, on a whole
file content, and on a whole directory tree. -/
theorem C3_idempotent :
    (∀ ln : List Char, gsubLine (gsubLine ln) = gsubLine ln) ∧
    (∀ content : List Char, sedFile (sedFile content) = sedFile content) ∧
    (∀ t : FSEntry, collectFiles (collectFiles t) = collectFiles t) := by
  refine ⟨gsubLine_idem, sedFile_idem, ?_⟩
  intro t
  cases t with
  | file n c => rfl
  | dir n es =>
    show FSEntry.dir n (processChildren (processChildren es))
        = FSEntry.dir n (processChildren es)
    rw [processChildren_idem es]

/-- C4, counterexample: a line with two link-shaped substrings is NOT
rewritten occurrence by occurrence; the greedy match spans both and a
single replacement `(d` results instead of the claimed `(b (d`. -/
theorem C4_counterexample :
    gsubLine ("(a/b.md (c/d.md").data = ("(d").data ∧
    gsubLine ("(a/b.md (c/d.md").data ≠ ("(b (d").data := by decide

/-- C4 (amended): despite the `g` flag, at most one contiguous region
per line is replaced: either the line is unchanged, or there are
positions of a `(`, a later `/` and a later `.md` such that the whole
span up to the `.md` collapses into a single replacement; several
link-shaped substrings on one line are absorbed by that one
replacement rather than each being rewritten separately. -/
theorem C4_amended_single_replacement (ln : List Char) :
    gsubLine ln = ln ∨
    ∃ p i j, p < i ∧ i < j ∧
      ln[p]? = some '(' ∧ ln[i]? = some '/' ∧ isMdAt ln j = true ∧
      gsubLine ln
        = ln.take p ++ '(' :: ((ln.take j).drop (i + 1) ++ ln.drop (j + 3)) := by
  cases h : subRound ln with
  | none => exact Or.inl (gsubLine_of_none ln h)
  | some pr =>
    obtain ⟨pre, rest⟩ := pr
    obtain ⟨p, i, j, h1, h2, hsm, _, hsl, _, hmd, _, hout⟩ :=
      subRound_absolute ln pre rest h
    exact Or.inr ⟨p, i, j, h1, h2, hsm.1, hsl, hmd, hout⟩

/-- C5, counterexample: a hidden markdown file under the root is a
file of the tree but is never visited by the traversal (the glob `*`
skips dotfiles), so it is not visited exactly once. -/
theorem C5_counterexample :
    [".hidden.md"] ∈ allFiles (.dir "wiki" [.file ".hidden.md" ("(a/b.md").data]) ∧
    (visits (.dir "wiki" [.file ".hidden.md" ("(a/b.md").data])).count [".hidden.md"]
      ≠ 1 := by decide

/-- C5 (amended): in a well-formed tree (distinct sibling names) the
traversal visits every file all of whose path components are
non-hidden exactly once, regardless of directory depth. -/
theorem C5_amended_visits_once (t : FSEntry) (hw : wfB t = true)
    (p : List String) (hm : p ∈ allFiles t)
    (hh : p.all (fun n => !hiddenName n) = true) :
    (visits t).count p = 1 := by
  cases t with
  | file n c => simp [allFiles, filesC] at hm
  | dir n es =>
    have hw0 : wfB (.dir n es) = (distinctNames es && wfList es) := rfl
    rw [hw0] at hw
    obtain ⟨h1, h2⟩ := Bool.and_eq_true_iff.mp hw
    have hm' : p ∈ (filesCL es).map (fun pc => pc.1) := hm
    have hmem : p ∈ visits (.dir n es) := by
      rw [show visits (.dir n es) = visitsL es from rfl, visitsL_eq es]
      exact List.mem_filter.mpr ⟨hm', hh⟩
    have hnd : (visits (.dir n es)).Nodup := by
      rw [show visits (.dir n es) = visitsL es from rfl, visitsL_eq es]
      exact (nodup_filesCL es h1 h2).filter _
    exact count_eq_one_of_nodup_mem _ p hnd hmem

/-- Witness for C5 (amended) on a two-level concrete tree. -/
theorem C5_witness :
    wfB (.dir "wiki" [.file "a.md" [], .dir "sub" [.file "b.md" []]]) = true ∧
    ["sub", "b.md"] ∈ allFiles (.dir "wiki" [.file "a.md" [], .dir "sub" [.file "b.md" []]]) ∧
    ["sub", "b.md"].all (fun n => !hiddenName n) = true ∧
    (visits (.dir "wiki" [.file "a.md" [], .dir "sub" [.file "b.md" []]])).count
      ["sub", "b.md"] = 1 :=
  ⟨by decide, by decide, by decide,
    C5_amended_visits_once _ (by decide) _ (by decide) (by decide)⟩

/-- C6: files whose name does not end in `.md` are byte-identical
before and after a run: the non-markdown part of the catalogue (paths
with contents) is exactly preserved, whatever those contents contain. -/
theorem C6_non_md_untouched (t : FSEntry) :
    (filesC (collectFiles t)).filter (fun pc => !lastIsMd pc.1)
      = (filesC t).filter (fun pc => !lastIsMd pc.1) := by
  cases t with
  | file n c => rfl
  | dir n es =>
    show (filesCL (processChildren es)).filter (fun pc => !lastIsMd pc.1)
        = (filesCL es).filter (fun pc => !lastIsMd pc.1)
    rw [filesCL_processChildren es, filter_map_comm]
    have hfix : ∀ x : List String × List Char, (rewriteEntry x).1 = x.1 := by
      intro x
      unfold rewriteEntry
      cases hC : rewrittenPath x.1 with
      | true => rfl
      | false => rfl
    have hcond : ((filesCL es).filter (fun x => !lastIsMd (rewriteEntry x).1))
        = (filesCL es).filter (fun x => !lastIsMd x.1) := by
      refine List.filter_congr ?_
      intro x hx
      rw [hfix x]
    rw [hcond]
    have hid : ∀ x ∈ (filesCL es).filter (fun x => !lastIsMd x.1),
        rewriteEntry x = x := by
      intro x hx
      have hp := List.of_mem_filter hx
      have hmd : lastIsMd x.1 = false := by
        cases hb : lastIsMd x.1 with
        | false => rfl
        | true => rw [hb] at hp; exact Bool.noConfusion hp
      unfold rewriteEntry
      have hrp : rewrittenPath x.1 = false := by
        unfold rewrittenPath
        rw [hmd, Bool.and_false]
      rw [hrp]
      rfl
    calc ((filesCL es).filter (fun x => !lastIsMd x.1)).map rewriteEntry
        = ((filesCL es).filter (fun x => !lastIsMd x.1)).map id :=
          List.map_congr_left (fun a ha => hid a ha)
      _ = (filesCL es).filter (fun x => !lastIsMd x.1) := List.map_id _

/-- C7, counterexample: even when the `sed` invocation on a visited
markdown file fails (status 1 recorded by the loop), the script's exit
status is 0, because no `errexit` is set and the final `echo` is the
last command; the claim's fail-fast non-zero exit does not hold. -/
theorem C7_counterexample :
    ["a.md"] ∈ visits (.dir "wiki" [.file "a.md" ("(x/y.md").data]) ∧
    collectStatus [["a.md"]] (.dir "wiki" [.file "a.md" ("(x/y.md").data]) = 1 ∧
    scriptExit [["a.md"]] (.dir "wiki" [.file "a.md" ("(x/y.md").data]) = 0 := by
  decide

/-- C7 (amended): the script always exits with status 0 once the
traversal loop finishes, regardless of which individual file
operations fail; a failure is visible in the loop's running status but
is discarded by the final `echo`. -/
theorem C7_amended_exit_zero :
    (∀ fails t, scriptExit fails t = 0) ∧
    (∃ fails t, collectStatus fails t ≠ 0 ∧ scriptExit fails t = 0) := by
  constructor
  · intro fails t
    rfl
  · exact ⟨[["a.md"]], .dir "wiki" [.file "a.md" []], by decide, rfl⟩

/-- C8: a line containing no substring of the shape
`(<path>/<name>.md` — whatever else it contains — is left completely
unchanged by the rewrite (and the total rewrite function never
fails). -/
theorem C8_unmatched_line_unchanged (ln : List Char)
    (h : ∀ a b c d, ln ≠ a ++ '(' :: (b ++ '/' :: (c ++ '.' :: 'm' :: 'd' :: d))) :
    gsubLine ln = ln := by
  cases hs : subRound ln with
  | none => exact gsubLine_of_none ln hs
  | some pr =>
    obtain ⟨pre, rest⟩ := pr
    obtain ⟨a, b, c, d, hdec, _, _, _⟩ := decomp_of_subRound ln pre rest hs
    exact absurd hdec (h a b c d)

/-- Witness for C8 at the concrete pattern-free line `[l](a.md`. -/
theorem C8_witness :
    (∀ a b c d, ("[l](a.md").data
      ≠ a ++ '(' :: (b ++ '/' :: (c ++ '.' :: 'm' :: 'd' :: d))) ∧
    gsubLine ("[l](a.md").data = ("[l](a.md").data := by
  have hno : ∀ a b c d, ("[l](a.md").data
      ≠ a ++ '(' :: (b ++ '/' :: (c ++ '.' :: 'm' :: 'd' :: d)) := by
    intro a b c d heq
    obtain ⟨pr, rs, hs⟩ := subRound_of_decomp _ a b c d heq
    have hnone : subRound ("[l](a.md").data = none := by decide
    rw [hnone] at hs
    exact Option.noConfusion hs
  exact ⟨hno, C8_unmatched_line_unchanged _ hno⟩

/-- C9: on a matching line exactly one contiguous region is replaced:
the output is the text before the first `(` that starts a match, then
`(`, then the text strictly between the last `/` preceding the line's
last `.md` and that `.md`, then the text after it; consequently the
number of lines of a file is preserved. -/
theorem C9_maximal_span :
    (∀ ln : List Char,
      (∃ a b c d, ln = a ++ '(' :: (b ++ '/' :: (c ++ '.' :: 'm' :: 'd' :: d))) →
      ∃ p i j,
        StartsMatch ln p ∧ (∀ q, q < p → ¬ StartsMatch ln q) ∧
        isMdAt ln j = true ∧ (∀ j', isMdAt ln j' = true → j' ≤ j) ∧
        ln[i]? = some '/' ∧ i < j ∧
        (∀ i' : Nat, ln[i']? = some '/' → i' < j → i' ≤ i) ∧
        gsubLine ln
          = ln.take p ++ '(' :: ((ln.take j).drop (i + 1) ++ ln.drop (j + 3))) ∧
    (∀ content : List Char,
      (splitNl (sedFile content)).length = (splitNl content).length) := by
  constructor
  · intro ln hex
    obtain ⟨a, b, c, d, hd⟩ := hex
    obtain ⟨pr, rs, hs⟩ := subRound_of_decomp ln a b c d hd
    obtain ⟨p, i, j, h1, h2, hsm, hmin, hsl, himax, hmd, hjmax, hout⟩ :=
      subRound_absolute ln pr rs hs
    exact ⟨p, i, j, hsm, hmin, hmd, hjmax, hsl, h2, himax, hout⟩
  · intro content
    rw [splitNl_sedFile, List.length_map]

/-- Witness for C9 at the concrete line `(a/b.md`. -/
theorem C9_witness :
    (∃ a b c d, ("(a/b.md").data
      = a ++ '(' :: (b ++ '/' :: (c ++ '.' :: 'm' :: 'd' :: d))) ∧
    (∃ p i j,
      StartsMatch ("(a/b.md").data p ∧ (∀ q, q < p → ¬ StartsMatch ("(a/b.md").data q) ∧
      isMdAt ("(a/b.md").data j = true ∧
      (∀ j', isMdAt ("(a/b.md").data j' = true → j' ≤ j) ∧
      ("(a/b.md").data[i]? = some '/' ∧ i < j ∧
      (∀ i' : Nat, ("(a/b.md").data[i']? = some '/' → i' < j → i' ≤ i) ∧
      gsubLine ("(a/b.md").data
        = ("(a/b.md").data.take p ++ '(' ::
          ((("(a/b.md").data.take j).drop (i + 1) ++ ("(a/b.md").data.drop (j + 3))) :=
  ⟨⟨[], ['a'], ['b'], [], by decide⟩,
    C9_maximal_span.1 _ ⟨[], ['a'], ['b'], [], by decide⟩⟩

/-- C10: entries whose name begins with a dot are never enumerated by
the glob: every visited path consists of non-hidden components only,
and a hidden entry (file or directory, markdown or not) is left
entirely untouched by the loop. -/
theorem C10_hidden_skipped :
    (∀ t : FSEntry, ∀ p ∈ visits t, p.all (fun n => !hiddenName n) = true) ∧
    (∀ e : FSEntry, hiddenName (entryName e) = true → processChild e = e) := by
  constructor
  · intro t p hp
    cases t with
    | file n c => simp [visits] at hp
    | dir n es =>
      have hp' : p ∈ ((filesCL es).map (fun pc => pc.1)).filter
          (fun q => q.all (fun m => !hiddenName m)) := by
        rw [← visitsL_eq es]
        exact hp
      have h3 := List.of_mem_filter hp'
      exact h3
  · intro e he
    cases e with
    | file n c =>
      show (if hiddenName n then FSEntry.file n c
        else if endsWithMd n then FSEntry.file n (sedFile c)
        else FSEntry.file n c) = FSEntry.file n c
      rw [if_pos (show hiddenName n = true from he)]
    | dir n es =>
      show (if hiddenName n then FSEntry.dir n es
        else FSEntry.dir n (processChildren es)) = FSEntry.dir n es
      rw [if_pos (show hiddenName n = true from he)]

/-- Witness for C10 on a concrete tree with a hidden markdown file. -/
theorem C10_witness :
    (["a.md"] ∈ visits
        (FSEntry.dir "wiki" [FSEntry.file "a.md" [], FSEntry.file ".secret.md" []]) ∧
      ["a.md"].all (fun n => !hiddenName n) = true) ∧
    (hiddenName (entryName (FSEntry.file ".secret.md" ([] : List Char))) = true ∧
      processChild (FSEntry.file ".secret.md" ([] : List Char))
        = FSEntry.file ".secret.md" []) := by
  refine ⟨⟨by decide, ?_⟩, by decide, ?_⟩
  · exact C10_hidden_skipped.1
      (FSEntry.dir "wiki" [FSEntry.file "a.md" [], FSEntry.file ".secret.md" []])
      ["a.md"] (by decide)
  · exact C10_hidden_skipped.2 (FSEntry.file ".secret.md" ([] : List Char)) (by decide)

end WikiLinks
